import Mathlib

/-!
Verification of the P2P chat/file-transfer client against its specification.

This file shallowly embeds the file-transfer protocol of the repository:
`src/client/file_transfer.py` (class `FileTransfer`), the session-level
handlers of `src/client/main.py` (class `P2PClient`), and the registry
endpoints of `src/server/main.py`.

Modelling conventions:
* Bytes are `Nat` (with side conditions `< 256` where relevant); byte
  strings are `List Nat`; text strings used as file names are `List Char`.
* The MD5 digest is modelled as an abstract function
  `md5 : List Nat → List Nat` passed explicitly: every statement below is
  proved for an arbitrary digest function, since the source only ever
  computes digests of whole byte strings and compares them for equality.
* Python `while` loops whose termination depends on the (finite) file
  system are compiled with an explicit fuel argument whose value matches
  the number of loop iterations the finite file system permits.
* Fallible Python code (functions returning `None` on error, or raising
  and catching exceptions) becomes `Option`-returning Lean code.
* The file system is passed explicitly: the set of already-existing file
  names in the destination directory is a `List (List Char)`, and the disk
  effect of a receive (which file exists afterwards and with which content)
  is returned as an explicit component of the result.
-/

/-- Hex digit characters as produced by Python's `bytes.hex()` (lowercase). -/
def hexDigitChar (n : Nat) : Char :=
  if n < 10 then Char.ofNat (48 + n) else Char.ofNat (87 + n)

/-- `bytes.hex()`: two lowercase hex digits per byte. -/
def bytesToHex : List Nat → List Char
  | [] => []
  | b :: bs => hexDigitChar (b / 16) :: hexDigitChar (b % 16) :: bytesToHex bs

/-- Value of one hex digit, as accepted by Python's `bytes.fromhex`
(upper or lower case); `none` for a non-hex character. -/
def hexDigitVal (c : Char) : Option Nat :=
  if 48 ≤ c.toNat ∧ c.toNat ≤ 57 then some (c.toNat - 48)
  else if 97 ≤ c.toNat ∧ c.toNat ≤ 102 then some (c.toNat - 87)
  else if 65 ≤ c.toNat ∧ c.toNat ≤ 70 then some (c.toNat - 55)
  else none

/-- `bytes.fromhex`: pairs of hex digits; `none` (a `ValueError` in the
source) on an odd-length string or a non-hex character.  (The source also
skips ASCII whitespace between bytes; no claim exercises that case and the
sender never produces it, so it is not modelled.) -/
def hexToBytes : List Char → Option (List Nat)
  | [] => some []
  | [_] => none
  | c1 :: c2 :: rest =>
    match hexDigitVal c1, hexDigitVal c2, hexToBytes rest with
    | some h, some l, some bs => some ((h * 16 + l) :: bs)
    | _, _, _ => none

/-- Decimal digits of a positive number, most significant first; the fuel
argument bounds the digit count (any fuel `≥ n` is enough for `n`). -/
def natToDigitsAux : Nat → Nat → List Char
  | 0, _ => []
  | fuel + 1, n => if n = 0 then [] else natToDigitsAux fuel (n / 10) ++ [hexDigitChar (n % 10)]

/-- Python `str(n)` for a natural number `n` (used for the `_1`, `_2`, …
collision suffixes). -/
def natDigits (n : Nat) : List Char :=
  if n = 0 then ['0'] else natToDigitsAux n n

/-- Numeric value of a decimal digit character. -/
def digitChVal (c : Char) : Nat := c.toNat - 48

/-- Parse a decimal digit string back to a number (proof tool for the
injectivity of `natDigits`; not part of the source). -/
def digitsVal (cs : List Char) : Nat := cs.foldl (fun a c => a * 10 + digitChVal c) 0

/-- Index of the last occurrence of `c`, if any. -/
def lastIdxOf (c : Char) : List Char → Option Nat
  | [] => none
  | x :: xs =>
    match lastIdxOf c xs with
    | some i => some (i + 1)
    | none => if x = c then some 0 else none

/-- `os.path.splitext` restricted to a bare file name (no directory
separators): split at the last dot, unless every character before that dot
is itself a dot (so `.bashrc` has no extension). -/
def splitext (cs : List Char) : List Char × List Char :=
  match lastIdxOf '.' cs with
  | none => (cs, [])
  | some i =>
    if (cs.take i).any (fun c => c != '.') then (cs.take i, cs.drop i) else (cs, [])

/-- `str.lower()`, applied character-wise. -/
def lowerChars (cs : List Char) : List Char := cs.map Char.toLower

/-- `FileTransfer.CHUNK_SIZE` (8 KB). -/
def CHUNK_SIZE : Nat := 8192

/-- What a path names on disk: a regular file with its content, or a
directory (anything that exists but is not a regular file). -/
inductive FSEntry where
  | file (content : List Nat)
  | dir
deriving DecidableEq

/-- The dictionary built by `FileTransfer.prepare_file_info`; each field is
an `Option` because the receiving code reads these keys with `.get`
defaults from arbitrary inbound dictionaries. -/
structure FileInfoD where
  filename : Option (List Char)
  size : Option Nat
  hash : Option (List Nat)
  extension : Option (List Char)
  total_chunks : Option Nat
deriving DecidableEq

/-- `FileTransfer.prepare_file_info`: `None` when the path does not exist
or is not a regular file, otherwise the metadata dictionary with
`total_chunks = (size + CHUNK_SIZE - 1) // CHUNK_SIZE`.  The MD5 digest is
streamed over the whole content in the source, so it is a function of the
full content here. -/
def prepare_file_info (md5 : List Nat → List Nat) (fs : Option FSEntry)
    (name : List Char) : Option FileInfoD :=
  match fs with
  | none => none
  | some FSEntry.dir => none
  | some (FSEntry.file F) =>
    some { filename := some name
           size := some F.length
           hash := some (md5 F)
           extension := some (lowerChars (splitext name).2)
           total_chunks := some ((F.length + CHUNK_SIZE - 1) / CHUNK_SIZE) }

/-- One step bound of the `while True: chunk = f.read(chunk_size)` loop;
the fuel is the content length, which bounds the number of nonempty reads. -/
def chunkFileGo (n : Nat) : Nat → List Nat → List (List Nat)
  | _, [] => []
  | 0, _ :: _ => []
  | fuel + 1, c :: cs =>
    if n = 0 then []
    else ((c :: cs).take n) :: chunkFileGo n fuel ((c :: cs).drop n)

/-- Split a byte string the way the send loops read a file: repeated
`f.read(n)` until an empty read. -/
def chunkFile (n : Nat) (content : List Nat) : List (List Nat) :=
  chunkFileGo n content.length content

/-- A message emitted by one of the two send paths, as a JSON dictionary.
`file_chunk` carries a `filename` key only on the `start_file_sending`
path; `file_complete` carries `total_chunks` only there as well. -/
inductive SMsg where
  | file_info (info : FileInfoD)
  | file_chunk (chunk_id : Nat) (data : List Char) (total_chunks : Nat)
      (filename : Option (List Char))
  | file_complete (filename : List Char) (hash : Option (List Nat))
      (total_chunks : Option Nat)
deriving DecidableEq

/-- The sequence of `file_chunk` messages for a list of chunks, with
0-based sequential ids starting at `i`. -/
def sendChunkMsgs (tc : Nat) (fname : Option (List Char)) :
    Nat → List (List Nat) → List SMsg
  | _, [] => []
  | i, c :: cs =>
    SMsg.file_chunk i (bytesToHex c) tc fname :: sendChunkMsgs tc fname (i + 1) cs

/-- `FileTransfer.send_file`: prepare the metadata, send it, then stream
the file in `chunk_size`-byte chunks (hex-encoded) and finish with a
`file_complete`; `none` when `prepare_file_info` fails.  The result is the
exact sequence of dictionaries passed to `send_func`. -/
def send_file (md5 : List Nat → List Nat) (fs : Option FSEntry) (name : List Char)
    (chunk_size : Nat) : Option (List SMsg) :=
  match fs with
  | some (FSEntry.file F) =>
    match prepare_file_info md5 fs name with
    | some info =>
      some (SMsg.file_info info
        :: (sendChunkMsgs (info.total_chunks.getD 0) none 0 (chunkFile chunk_size F)
            ++ [SMsg.file_complete (info.filename.getD []) info.hash none]))
    | none => none
  | _ => none

/-- The name candidate probed by the collision loop of
`FileTransfer.receive_file`: the numeric suffix is inserted before the
extension of the original file name. -/
def mkCand (stem ext : List Char) (k : Nat) : List Char :=
  stem ++ '_' :: (natDigits k ++ ext)

/-- The `while os.path.exists(file_path)` probe loop of
`FileTransfer.receive_file` (lines 141-147): the stem/extension split is
recomputed from the *original* file name each iteration, so the candidates
are `name_1.ext`, `name_2.ext`, ….  The fuel (`existing.length + 1` at the
call site) covers every iteration the loop can make against the finite
directory listing; `probeLoop_not_mem` below proves the loop always exits
before the fuel runs out. -/
def probeLoop (existing : List (List Char)) (stem ext : List Char) :
    Nat → Nat → List Char
  | counter, 0 => mkCand stem ext counter
  | counter, fuel + 1 =>
    if mkCand stem ext counter ∈ existing then
      probeLoop existing stem ext (counter + 1) fuel
    else mkCand stem ext counter

/-- Target-name choice of `FileTransfer.receive_file`: keep the offered
name when free, otherwise probe `name_1.ext`, `name_2.ext`, … -/
def resolve_collision (existing : List (List Char)) (filename : List Char) : List Char :=
  if filename ∈ existing then
    probeLoop existing (splitext filename).1 (splitext filename).2 1 (existing.length + 1)
  else filename

/-- The collision loop of `P2PClient.handle_file_complete` (lines 419-425):
unlike `receive_file`, `final_filename` is *reassigned* each iteration,
so the stem/extension split is taken from the already-suffixed name. -/
def hfcProbe (existing : List (List Char)) : List Char → Nat → Nat → List Char
  | filename, _, 0 => filename
  | filename, counter, fuel + 1 =>
    if filename ∈ existing then
      hfcProbe existing
        ((splitext filename).1 ++ '_' :: (natDigits counter ++ (splitext filename).2))
        (counter + 1) fuel
    else filename

/-- Final-name choice of `P2PClient.handle_file_complete`. -/
def resolveHFC (existing : List (List Char)) (filename : List Char) : List Char :=
  hfcProbe existing filename 1 (existing.length + 1)

/-- An inbound message dictionary as inspected by the receiving code:
each key is read with `.get` (absent keys yield `none`). -/
structure ChunkMsg where
  type : Option String
  chunk_id : Option Nat
  data : Option (List Char)
  filename : Option (List Char)
deriving DecidableEq

/-- How a sent message appears to the receiving side (the same dictionary,
read through `.get`): the `file_info` dictionary built by
`prepare_file_info` has no `type` key. -/
def wireView : SMsg → ChunkMsg
  | SMsg.file_info info =>
    { type := none, chunk_id := none, data := none, filename := info.filename }
  | SMsg.file_chunk i data _ fname =>
    { type := some "file_chunk", chunk_id := some i, data := some data, filename := fname }
  | SMsg.file_complete fname _ _ =>
    { type := some "file_complete", chunk_id := none, data := none, filename := some fname }

/-- The `for chunk_id in range(total_chunks)` loop of
`FileTransfer.receive_file` (lines 157-182): each iteration calls
`receive_func` (modelled as the next stream element; an exhausted stream is
a `None` reply), requires `type == 'file_chunk'` and `chunk_id` equal to
the number of chunks already written, hex-decodes the payload and appends
it.  Every failure removes the partial file and yields `none`. -/
def receiveChunks : List (Option ChunkMsg) → Nat → Nat → List Nat → Option (List Nat)
  | _, 0, _, acc => some acc
  | [], _ + 1, _, _ => none
  | none :: _, _ + 1, _, _ => none
  | some m :: rest, k + 1, cid, acc =>
    if m.type = some "file_chunk" ∧ m.chunk_id = some cid then
      match m.data with
      | none => none
      | some hex =>
        match hexToBytes hex with
        | none => none
        | some bs => receiveChunks rest k (cid + 1) (acc ++ bs)
    else none

/-- `FileTransfer.receive_file` (lines 125-209).  Inputs: the offered
metadata dictionary, the stream of `receive_func` replies, and the names
already present in the destination directory.  Output: the returned path
(`none` on error) and the disk effect — which file the call leaves behind,
with its content.  Every error branch of the source removes the partial
file before returning `None`, so errors leave nothing behind; after the
chunk loop the recomputed digest must equal the offer's `hash` key, and a
mismatch also removes the file. -/
def receive_file (md5 : List Nat → List Nat) (existing : List (List Char))
    (info : FileInfoD) (msgs : List (Option ChunkMsg)) :
    Option (List Char) × Option (List Char × List Nat) :=
  let filename := info.filename.getD "received_file".data
  let target := resolve_collision existing filename
  match receiveChunks msgs (info.total_chunks.getD 0) 0 [] with
  | none => (none, none)
  | some bytes =>
    if info.hash = some (md5 bytes) then (some target, some (target, bytes))
    else (none, none)

/-- `FileTransferState` of `src/client/main.py`. -/
inductive FTState where
  | idle
  | waiting_confirmation
  | sending_chunks
  | receiving_chunks
deriving DecidableEq

/-- `FileTransferSession` of `src/client/main.py`; `temp` is the content
of the staging file on disk (`none` when no staging file exists).
`start_time` (wall-clock) is outside the embedding and omitted. -/
structure Session where
  filename : List Char := []
  filesize : Nat := 0
  total_chunks : Nat := 0
  sent_chunks : Nat := 0
  received_chunks : Nat := 0
  file_hash : List Nat := []
  temp : Option (List Nat) := none
  state : FTState := FTState.idle
  peer_username : List Char := []
  filepath : List Char := []
deriving DecidableEq

/-- What `P2PClient.handle_file_chunk` prints. -/
inductive ChunkOut where
  | unexpected
  | chunk_error
  | ok
deriving DecidableEq

/-- `P2PClient.handle_file_chunk` (lines 349-383): with no session in
`RECEIVING_CHUNKS` state the chunk is reported as unexpected and ignored;
otherwise the payload is hex-decoded (`.get` defaults: `chunk_id` 0,
`data` empty, `filename` the session's) and written to the staging file —
truncating (`'wb'`) when `chunk_id == 0`, appending (`'ab'`) otherwise —
and `received_chunks` is incremented.  No comparison of `chunk_id` with
the number of chunks already written is made. -/
def handle_file_chunk (s : Option Session) (m : ChunkMsg) : Option Session × ChunkOut :=
  match s with
  | none => (none, ChunkOut.unexpected)
  | some sess =>
    if sess.state ≠ FTState.receiving_chunks then (some sess, ChunkOut.unexpected)
    else
      let cid := m.chunk_id.getD 0
      let fname := m.filename.getD sess.filename
      match hexToBytes (m.data.getD []) with
      | none => (some sess, ChunkOut.chunk_error)
      | some bytes =>
        (some { sess with
                 temp := some (if 0 < cid then sess.temp.getD [] ++ bytes else bytes)
                 received_chunks := sess.received_chunks + 1
                 filename := fname }, ChunkOut.ok)

/-- What `P2PClient.handle_file_complete` prints. -/
inductive CompOut where
  | warn_no_session
  | ok_verified
  | warn_hash_mismatch
  | ok_no_hash
  | warn_size_mismatch
  | error_finalizing
deriving DecidableEq

/-- `P2PClient.handle_file_complete` (lines 406-471): with no session, a
warning only.  Otherwise the final name is resolved and the staging file is
renamed to it *unconditionally* (nothing compares `received_chunks` with
`total_chunks`); only afterwards are the size and, when a hash was offered,
the digest recomputed and compared — mismatches are printed but the file is
kept.  A missing staging file makes `os.rename` raise; the `except` branch
then fails to save a backup for the same reason and leaves nothing.  The
session is cleared in every case.  Result: new session, disk effect
(final name and content of the file left behind), output. -/
def handle_file_complete (md5 : List Nat → List Nat) (s : Option Session)
    (existing : List (List Char)) :
    Option Session × Option (List Char × List Nat) × CompOut :=
  match s with
  | none => (none, none, CompOut.warn_no_session)
  | some sess =>
    match sess.temp with
    | none => (none, none, CompOut.error_finalizing)
    | some bytes =>
      let final := resolveHFC existing sess.filename
      let out :=
        if bytes.length = sess.filesize then
          if sess.file_hash ≠ [] then
            if md5 bytes = sess.file_hash then CompOut.ok_verified
            else CompOut.warn_hash_mismatch
          else CompOut.ok_no_hash
        else CompOut.warn_size_mismatch
      (none, some (final, bytes), out)

/-- What `P2PClient.handle_file_accept` prints. -/
inductive AcceptOut where
  | proceed
  | warn_unexpected
deriving DecidableEq

/-- `P2PClient.handle_file_accept` (lines 334-341): only a session in
`WAITING_CONFIRMATION` state proceeds to `SENDING_CHUNKS` (and then starts
streaming, modelled separately by `start_file_sending`); any other
situation prints an "Unexpected file accept" warning and changes nothing. -/
def handle_file_accept (s : Option Session) : Option Session × AcceptOut :=
  match s with
  | none => (none, AcceptOut.warn_unexpected)
  | some sess =>
    if sess.state = FTState.waiting_confirmation then
      (some { sess with state := FTState.sending_chunks }, AcceptOut.proceed)
    else (some sess, AcceptOut.warn_unexpected)

/-- What `P2PClient.handle_file_reject` prints. -/
inductive RejectOut where
  | notice_rejected
  | silent
deriving DecidableEq

/-- `P2PClient.handle_file_reject` (lines 343-347): `if self.file_session:`
clears any existing session (whatever its state) with a "rejected" notice;
with no session nothing at all happens — there is no `else`, so no warning
is printed. -/
def handle_file_reject (s : Option Session) : Option Session × RejectOut :=
  match s with
  | some _ => (none, RejectOut.notice_rejected)
  | none => (none, RejectOut.silent)

/-- The session built by `P2PClient.send_file_to_peer` (lines 678-687)
from the prepared metadata, before waiting for confirmation. -/
def mkSendSession (info : FileInfoD) (path : List Char) : Session :=
  { filename := info.filename.getD []
    filesize := info.size.getD 0
    total_chunks := info.total_chunks.getD 0
    file_hash := info.hash.getD []
    state := FTState.waiting_confirmation
    filepath := path }

/-- `P2PClient.start_file_sending` (lines 713-776): streams the file in
4096-byte chunks (`chunk_size = 4096`) with sequential 0-based ids, each
message carrying the session's `total_chunks` (which was computed with
`CHUNK_SIZE = 8192`), then a `file_complete`.  `content` is the file at
the session's `filepath`. -/
def start_file_sending (sess : Session) (content : List Nat) : List SMsg :=
  if sess.state ≠ FTState.sending_chunks then []
  else
    sendChunkMsgs sess.total_chunks (some sess.filename) 0 (chunkFile 4096 content)
      ++ [SMsg.file_complete sess.filename (some sess.file_hash) (some sess.total_chunks)]

/-- The chunk ids of a message sequence, in order of emission. -/
def chunkIds : List SMsg → List Nat
  | [] => []
  | SMsg.file_chunk i _ _ _ :: rest => i :: chunkIds rest
  | _ :: rest => chunkIds rest

/-- Outcome of `POST /register` on the STUN server. -/
inductive RegOut where
  | created
  | conflict
  | badRequest
deriving DecidableEq

/-- `register_peer` of `src/server/main.py` (lines 112-147), over the
in-memory registry (an association list of username to address/port; the
Redis branch performs the same membership test and insert): usernames
shorter than 3 characters are rejected with 400 before anything else; an
already-registered username yields 409 and leaves the registry unchanged;
otherwise the peer is stored and 201 returned. -/
def register_peer (store : List (String × String × Nat)) (username ip : String)
    (port : Nat) : RegOut × List (String × String × Nat) :=
  if username = "" ∨ username.length < 3 then (RegOut.badRequest, store)
  else if store.any (fun e => e.1 = username) then (RegOut.conflict, store)
  else (RegOut.created, (username, ip, port) :: store)

/-- `get_peer_info` of `src/server/main.py` (lines 164-180): look the
username up; `none` is the 404 response. -/
def get_peer_info (store : List (String × String × Nat)) (username : String) :
    Option (String × Nat) :=
  match store.find? (fun e => e.1 = username) with
  | some e => some e.2
  | none => none

/-- A concrete digest function used to instantiate the abstract `md5`
parameter on concrete inputs (the statements below hold for an arbitrary
digest function; evaluation just needs one). -/
def md5c : List Nat → List Nat := fun _ => []

/-! ### Lemmas about hex encoding -/

theorem hexDigitVal_hexDigitChar (d : Nat) (hd : d < 16) :
    hexDigitVal (hexDigitChar d) = some d := by
  interval_cases d <;> decide

theorem hexToBytes_bytesToHex : ∀ bs : List Nat, (∀ b ∈ bs, b < 256) →
    hexToBytes (bytesToHex bs) = some bs := by
  intro bs
  induction bs with
  | nil => intro _; rfl
  | cons b bs ih =>
    intro h
    have hb : b < 256 := h b (List.mem_cons_self _ _)
    have h1 : hexDigitVal (hexDigitChar (b / 16)) = some (b / 16) :=
      hexDigitVal_hexDigitChar _ (by omega)
    have h2 : hexDigitVal (hexDigitChar (b % 16)) = some (b % 16) :=
      hexDigitVal_hexDigitChar _ (by omega)
    have ihh := ih (fun x hx => h x (List.mem_cons_of_mem _ hx))
    simp only [bytesToHex, hexToBytes, h1, h2, ihh]
    have : b / 16 * 16 + b % 16 = b := by omega
    rw [this]

/-! ### Lemmas about the chunking loop -/

theorem chunkFileGo_nil (n fuel : Nat) : chunkFileGo n fuel [] = [] := by
  cases fuel <;> rfl

theorem chunkFileGo_join : ∀ (fuel : Nat) (content : List Nat) (n : Nat), 0 < n →
    content.length ≤ fuel → (chunkFileGo n fuel content).flatten = content := by
  intro fuel
  induction fuel with
  | zero =>
    intro content n _ hlen
    have : content = [] := List.eq_nil_of_length_eq_zero (by omega)
    subst this
    simp [chunkFileGo_nil]
  | succ fuel ih =>
    intro content n hn hlen
    match content with
    | [] => simp [chunkFileGo_nil]
    | c :: cs =>
      rw [chunkFileGo, if_neg (by omega)]
      have hd : ((c :: cs).drop n).length ≤ fuel := by
        rw [List.length_drop]
        simp only [List.length_cons] at hlen ⊢
        omega
      rw [List.flatten_cons, ih _ n hn hd, List.take_append_drop]

theorem ceil_div_step (len n : Nat) (hn : 0 < n) (hl : 0 < len) :
    (len - n + n - 1) / n + 1 = (len + n - 1) / n := by
  have h1 : len + n - 1 = (len - 1) + n := by omega
  rw [h1, Nat.add_div_right _ hn]
  rcases Nat.le_total len n with h | h
  · have h2 : len - n = 0 := by omega
    rw [h2]
    have h3 : (0 + n - 1) / n = 0 := Nat.div_eq_of_lt (by omega)
    have h4 : (len - 1) / n = 0 := Nat.div_eq_of_lt (by omega)
    omega
  · have h2 : len - n + n - 1 = len - 1 := by omega
    rw [h2]

theorem chunkFileGo_length : ∀ (fuel : Nat) (content : List Nat) (n : Nat), 0 < n →
    content.length ≤ fuel →
    (chunkFileGo n fuel content).length = (content.length + n - 1) / n := by
  intro fuel
  induction fuel with
  | zero =>
    intro content n hn hlen
    have : content = [] := List.eq_nil_of_length_eq_zero (by omega)
    subst this
    simp only [chunkFileGo_nil, List.length_nil, List.length_nil]
    exact (Nat.div_eq_of_lt (by omega)).symm
  | succ fuel ih =>
    intro content n hn hlen
    match content with
    | [] =>
      simp only [chunkFileGo_nil, List.length_nil]
      exact (Nat.div_eq_of_lt (by omega)).symm
    | c :: cs =>
      rw [chunkFileGo, if_neg (by omega)]
      have hd : ((c :: cs).drop n).length ≤ fuel := by
        rw [List.length_drop]
        simp only [List.length_cons] at hlen ⊢
        omega
      rw [List.length_cons, ih _ n hn hd, List.length_drop]
      have hl : 0 < (c :: cs).length := by simp
      have := ceil_div_step (c :: cs).length n hn hl
      omega

theorem chunkFile_join (n : Nat) (content : List Nat) (hn : 0 < n) :
    (chunkFile n content).flatten = content :=
  chunkFileGo_join content.length content n hn le_rfl

theorem chunkFile_length (n : Nat) (content : List Nat) (hn : 0 < n) :
    (chunkFile n content).length = (content.length + n - 1) / n :=
  chunkFileGo_length content.length content n hn le_rfl

theorem chunkFileGo_mem : ∀ (fuel : Nat) (content : List Nat) (n : Nat)
    (c : List Nat), c ∈ chunkFileGo n fuel content → ∀ b ∈ c, b ∈ content := by
  intro fuel
  induction fuel with
  | zero =>
    intro content n c hc
    cases content <;> simp [chunkFileGo_nil, chunkFileGo] at hc
  | succ fuel ih =>
    intro content n c hc b hb
    match content with
    | [] => simp [chunkFileGo_nil] at hc
    | x :: xs =>
      rw [chunkFileGo] at hc
      by_cases hn : n = 0
      · simp [hn] at hc
      · rw [if_neg hn] at hc
        rcases List.mem_cons.mp hc with h | h
        · subst h
          exact List.take_subset _ _ hb
        · exact List.drop_subset _ _ (ih _ n c h b hb)

theorem chunkFile_mem (n : Nat) (content : List Nat) (c : List Nat)
    (hc : c ∈ chunkFile n content) : ∀ b ∈ c, b ∈ content :=
  chunkFileGo_mem content.length content n c hc

/-! ### The receive loop against the sent chunk stream -/

theorem receiveChunks_sent : ∀ (chunks : List (List Nat)) (surplus : List (Option ChunkMsg))
    (tc i : Nat) (fname : Option (List Char)) (acc : List Nat),
    (∀ c ∈ chunks, ∀ b ∈ c, b < 256) →
    receiveChunks ((sendChunkMsgs tc fname i chunks).map (fun m => some (wireView m)) ++ surplus)
      chunks.length i acc = some (acc ++ chunks.flatten) := by
  intro chunks
  induction chunks with
  | nil =>
    intro surplus tc i fname acc _
    simp [sendChunkMsgs, receiveChunks]
  | cons c cs ih =>
    intro surplus tc i fname acc h
    have hc : ∀ b ∈ c, b < 256 := h c (List.mem_cons_self _ _)
    have hrt := hexToBytes_bytesToHex c hc
    have hih := ih surplus tc (i + 1) fname (acc ++ c)
      (fun x hx => h x (List.mem_cons_of_mem _ hx))
    have hstep : receiveChunks
        ((sendChunkMsgs tc fname i (c :: cs)).map (fun m => some (wireView m)) ++ surplus)
        (c :: cs).length i acc
        = receiveChunks
          ((sendChunkMsgs tc fname (i + 1) cs).map (fun m => some (wireView m)) ++ surplus)
          cs.length (i + 1) (acc ++ c) := by
      show receiveChunks
          (some (wireView (SMsg.file_chunk i (bytesToHex c) tc fname))
            :: ((sendChunkMsgs tc fname (i + 1) cs).map (fun m => some (wireView m)) ++ surplus))
          (cs.length + 1) i acc = _
      rw [receiveChunks]
      have hcond : (wireView (SMsg.file_chunk i (bytesToHex c) tc fname)).type
          = some "file_chunk" ∧
          (wireView (SMsg.file_chunk i (bytesToHex c) tc fname)).chunk_id = some i :=
        And.intro rfl rfl
      rw [if_pos hcond]
      show (match hexToBytes (bytesToHex c) with
        | none => (none : Option (List Nat))
        | some bs =>
          receiveChunks
            ((sendChunkMsgs tc fname (i + 1) cs).map (fun m => some (wireView m)) ++ surplus)
            cs.length (i + 1) (acc ++ bs)) = _
      rw [hrt]
    rw [hstep, hih]
    simp [List.append_assoc]

theorem receiveChunks_bad : ∀ (chunks : List (List Nat)) (bad : ChunkMsg)
    (rest : List (Option ChunkMsg)) (tc i needed : Nat) (fname : Option (List Char))
    (acc : List Nat),
    (∀ c ∈ chunks, ∀ b ∈ c, b < 256) →
    chunks.length < needed →
    (bad.type ≠ some "file_chunk" ∨ bad.chunk_id ≠ some (i + chunks.length)) →
    receiveChunks ((sendChunkMsgs tc fname i chunks).map (fun m => some (wireView m))
      ++ some bad :: rest) needed i acc = none := by
  intro chunks
  induction chunks with
  | nil =>
    intro bad rest tc i needed fname acc _ hlt hbad
    obtain ⟨k, rfl⟩ : ∃ k, needed = k + 1 := ⟨needed - 1, by omega⟩
    simp only [sendChunkMsgs, List.map_nil, List.nil_append]
    rw [receiveChunks, if_neg]
    simp only [List.length_nil, Nat.add_zero] at hbad
    intro hcontra
    rcases hbad with hb | hb
    · exact hb hcontra.1
    · exact hb hcontra.2
  | cons c cs ih =>
    intro bad rest tc i needed fname acc h hlt hbad
    obtain ⟨k, rfl⟩ : ∃ k, needed = k + 1 := ⟨needed - 1, by omega⟩
    have hc : ∀ b ∈ c, b < 256 := h c (List.mem_cons_self _ _)
    have hrt := hexToBytes_bytesToHex c hc
    have hstep : receiveChunks
        ((sendChunkMsgs tc fname i (c :: cs)).map (fun m => some (wireView m))
          ++ some bad :: rest) (k + 1) i acc
        = receiveChunks
          ((sendChunkMsgs tc fname (i + 1) cs).map (fun m => some (wireView m))
            ++ some bad :: rest) k (i + 1) (acc ++ c) := by
      show receiveChunks
          (some (wireView (SMsg.file_chunk i (bytesToHex c) tc fname))
            :: ((sendChunkMsgs tc fname (i + 1) cs).map (fun m => some (wireView m))
              ++ some bad :: rest)) (k + 1) i acc = _
      rw [receiveChunks]
      have hcond : (wireView (SMsg.file_chunk i (bytesToHex c) tc fname)).type
          = some "file_chunk" ∧
          (wireView (SMsg.file_chunk i (bytesToHex c) tc fname)).chunk_id = some i :=
        And.intro rfl rfl
      rw [if_pos hcond]
      show (match hexToBytes (bytesToHex c) with
        | none => (none : Option (List Nat))
        | some bs =>
          receiveChunks
            ((sendChunkMsgs tc fname (i + 1) cs).map (fun m => some (wireView m))
              ++ some bad :: rest) k (i + 1) (acc ++ bs)) = _
      rw [hrt]
    rw [hstep]
    apply ih bad rest tc (i + 1) k fname (acc ++ c)
      (fun x hx => h x (List.mem_cons_of_mem _ hx))
    · simp only [List.length_cons] at hlt
      omega
    · simp only [List.length_cons] at hbad
      rcases hbad with hb | hb
      · exact Or.inl hb
      · refine Or.inr ?_
        have : i + 1 + cs.length = i + (cs.length + 1) := by omega
        rw [this]
        exact hb

/-! ### Chunk ids of the sent stream -/

theorem chunkIds_sendChunkMsgs : ∀ (chunks : List (List Nat)) (tc i : Nat)
    (fname : Option (List Char)),
    chunkIds (sendChunkMsgs tc fname i chunks) = List.range' i chunks.length := by
  intro chunks
  induction chunks with
  | nil => intro tc i fname; rfl
  | cons c cs ih =>
    intro tc i fname
    simp only [sendChunkMsgs, chunkIds, List.length_cons, List.range'_succ]
    rw [ih]

theorem chunkIds_append : ∀ (a b : List SMsg),
    chunkIds (a ++ b) = chunkIds a ++ chunkIds b := by
  intro a
  induction a with
  | nil => intro b; rfl
  | cons m ms ih =>
    intro b
    cases m <;> simp [chunkIds, ih]

/-! ### Decimal digits: injectivity via re-parsing -/

theorem digitChVal_hexDigitChar (d : Nat) (hd : d < 10) :
    digitChVal (hexDigitChar d) = d := by
  interval_cases d <;> decide

theorem digitsVal_append_digit (cs : List Char) (c : Char) :
    digitsVal (cs ++ [c]) = digitsVal cs * 10 + digitChVal c := by
  simp [digitsVal, List.foldl_append]

theorem digitsVal_natToDigitsAux : ∀ (fuel n : Nat), n ≤ fuel →
    digitsVal (natToDigitsAux fuel n) = n := by
  intro fuel
  induction fuel with
  | zero =>
    intro n h
    have : n = 0 := by omega
    subst this
    rfl
  | succ fuel ih =>
    intro n h
    by_cases h0 : n = 0
    · subst h0; rfl
    · rw [natToDigitsAux, if_neg h0, digitsVal_append_digit,
        ih (n / 10) (by omega), digitChVal_hexDigitChar _ (by omega)]
      omega

theorem digitsVal_natDigits (n : Nat) : digitsVal (natDigits n) = n := by
  by_cases h : n = 0
  · subst h; rfl
  · rw [natDigits, if_neg h]
    exact digitsVal_natToDigitsAux n n le_rfl

theorem natDigits_inj {a b : Nat} (h : natDigits a = natDigits b) : a = b := by
  have h2 := congrArg digitsVal h
  rwa [digitsVal_natDigits, digitsVal_natDigits] at h2

theorem mkCand_inj {stem ext : List Char} {a b : Nat}
    (h : mkCand stem ext a = mkCand stem ext b) : a = b := by
  unfold mkCand at h
  have h1 := List.append_cancel_left h
  injection h1 with _ h2
  exact natDigits_inj (List.append_cancel_right h2)

/-! ### The receive-side collision probe never picks an existing name -/

theorem probeLoop_cases (existing : List (List Char)) (stem ext : List Char) :
    ∀ (fuel counter : Nat), probeLoop existing stem ext counter fuel ∉ existing ∨
      ∀ j < fuel, mkCand stem ext (counter + j) ∈ existing := by
  intro fuel
  induction fuel with
  | zero =>
    intro counter
    right
    intro j hj
    exact absurd hj (Nat.not_lt_zero j)
  | succ fuel ih =>
    intro counter
    by_cases hm : mkCand stem ext counter ∈ existing
    · rcases ih (counter + 1) with hgood | hall
      · left
        rw [probeLoop, if_pos hm]
        exact hgood
      · right
        intro j hj
        cases j with
        | zero => simpa using hm
        | succ j =>
          have heq : counter + (j + 1) = counter + 1 + j := by omega
          rw [heq]
          exact hall j (by omega)
    · left
      rw [probeLoop, if_neg hm]
      exact hm

theorem resolve_collision_not_mem (existing : List (List Char)) (filename : List Char) :
    resolve_collision existing filename ∉ existing := by
  unfold resolve_collision
  by_cases h : filename ∈ existing
  · rw [if_pos h]
    rcases probeLoop_cases existing (splitext filename).1 (splitext filename).2
      (existing.length + 1) 1 with hgood | hall
    · exact hgood
    · exfalso
      have hnodup : ((List.range (existing.length + 1)).map
          (fun j => mkCand (splitext filename).1 (splitext filename).2 (1 + j))).Nodup := by
        refine List.Nodup.map ?_ (List.nodup_range _)
        intro a b hab
        have := mkCand_inj hab
        omega
      have hsub : ∀ x ∈ (List.range (existing.length + 1)).map
          (fun j => mkCand (splitext filename).1 (splitext filename).2 (1 + j)),
          x ∈ existing := by
        intro x hx
        simp only [List.mem_map, List.mem_range] at hx
        obtain ⟨j, hj, rfl⟩ := hx
        exact hall j (by omega)
      have hcard1 := List.toFinset_card_of_nodup hnodup
      have hcard2 : ((List.range (existing.length + 1)).map
          (fun j => mkCand (splitext filename).1 (splitext filename).2 (1 + j))).toFinset
          ⊆ existing.toFinset := by
        intro x hx
        rw [List.mem_toFinset] at hx ⊢
        exact hsub x hx
      have hle1 := Finset.card_le_card hcard2
      have hle2 := List.toFinset_card_le existing
      have hlen : ((List.range (existing.length + 1)).map
          (fun j => mkCand (splitext filename).1 (splitext filename).2 (1 + j))).length
          = existing.length + 1 := by simp
      omega
  · rw [if_neg h]
    exact h

/-! ### Claim C1 -/

/-- C1: the chunked transfer round-trips byte-for-byte.  For every file
content `F` (all bytes in range), `send_file` with the default chunk size
produces the metadata message followed by the chunk stream and
`file_complete`; `receive_file`, given that metadata and fed exactly the
remaining message sequence, succeeds and writes a file whose content is
exactly `F`. -/
theorem c1_roundtrip (md5 : List Nat → List Nat) (name : List Char)
    (existing : List (List Char)) (F : List Nat) (hF : ∀ b ∈ F, b < 256) :
    ∃ info rest,
      send_file md5 (some (FSEntry.file F)) name CHUNK_SIZE
        = some (SMsg.file_info info :: rest) ∧
      receive_file md5 existing info (rest.map (fun m => some (wireView m)))
        = (some (resolve_collision existing name),
           some (resolve_collision existing name, F)) := by
  refine ⟨{ filename := some name, size := some F.length, hash := some (md5 F),
            extension := some (lowerChars (splitext name).2),
            total_chunks := some ((F.length + CHUNK_SIZE - 1) / CHUNK_SIZE) },
    sendChunkMsgs ((F.length + CHUNK_SIZE - 1) / CHUNK_SIZE) none 0 (chunkFile CHUNK_SIZE F)
      ++ [SMsg.file_complete name (some (md5 F)) none], rfl, ?_⟩
  have hpos : 0 < CHUNK_SIZE := by norm_num [CHUNK_SIZE]
  have hvalid : ∀ c ∈ chunkFile CHUNK_SIZE F, ∀ b ∈ c, b < 256 :=
    fun c hc b hb => hF b (chunkFile_mem CHUNK_SIZE F c hc b hb)
  have hrecv := receiveChunks_sent (chunkFile CHUNK_SIZE F)
    [some (wireView (SMsg.file_complete name (some (md5 F)) none))]
    ((F.length + CHUNK_SIZE - 1) / CHUNK_SIZE) 0 none [] hvalid
  rw [chunkFile_length CHUNK_SIZE F hpos, chunkFile_join CHUNK_SIZE F hpos,
    List.nil_append] at hrecv
  rw [List.map_append]
  show (match receiveChunks
      ((sendChunkMsgs ((F.length + CHUNK_SIZE - 1) / CHUNK_SIZE) none 0
          (chunkFile CHUNK_SIZE F)).map (fun m => some (wireView m))
        ++ [some (wireView (SMsg.file_complete name (some (md5 F)) none))])
      ((F.length + CHUNK_SIZE - 1) / CHUNK_SIZE) 0 [] with
    | none => ((none : Option (List Char)), (none : Option (List Char × List Nat)))
    | some bytes =>
      if (some (md5 F) : Option (List Nat)) = some (md5 bytes) then
        (some (resolve_collision existing name), some (resolve_collision existing name, bytes))
      else (none, none)) = _
  rw [hrecv]
  simp

/-- C1 witness: the round-trip theorem at a concrete two-byte file. -/
theorem c1_witness :
    ∃ info rest,
      send_file md5c (some (FSEntry.file [0, 255])) "a.bin".data CHUNK_SIZE
        = some (SMsg.file_info info :: rest) ∧
      receive_file md5c [] info (rest.map (fun m => some (wireView m)))
        = (some (resolve_collision [] "a.bin".data),
           some (resolve_collision [] "a.bin".data, [0, 255])) :=
  c1_roundtrip md5c "a.bin".data [] [0, 255] (by decide)

/-! ### Claim C9 -/

/-- C9: `prepare_file_info` is total in the `Option` style: it returns
`none` when the path does not exist or does not name a regular file, and
when it returns a dictionary the `total_chunks` field is the ceiling of
`size / CHUNK_SIZE` of the file's actual size (characterised here as the
unique `t` with `size ≤ t * CHUNK_SIZE < size + CHUNK_SIZE`). -/
theorem c9_prepare_total (md5 : List Nat → List Nat) (name : List Char) :
    prepare_file_info md5 none name = none ∧
    prepare_file_info md5 (some FSEntry.dir) name = none ∧
    ∀ F : List Nat, ∃ info,
      prepare_file_info md5 (some (FSEntry.file F)) name = some info ∧
      info.size = some F.length ∧
      ∃ t, info.total_chunks = some t ∧
        F.length ≤ t * CHUNK_SIZE ∧ t * CHUNK_SIZE < F.length + CHUNK_SIZE := by
  refine ⟨rfl, rfl, ?_⟩
  intro F
  refine ⟨_, rfl, rfl, (F.length + CHUNK_SIZE - 1) / CHUNK_SIZE, rfl, ?_, ?_⟩
  · simp only [CHUNK_SIZE]
    omega
  · simp only [CHUNK_SIZE]
    omega

/-! ### Claim C10 -/

/-- C10: the empty-file transfer completes successfully.  For a zero-byte
source file, `total_chunks` is 0; `send_file` emits only the metadata and
`file_complete` messages (zero chunks); `receive_file` on that offer with
an empty stream creates a zero-byte file, passes hash verification against
the offer's hash, and returns its path. -/
theorem c10_empty_file (md5 : List Nat → List Nat) (name : List Char)
    (existing : List (List Char)) :
    prepare_file_info md5 (some (FSEntry.file [])) name
      = some { filename := some name, size := some 0, hash := some (md5 []),
               extension := some (lowerChars (splitext name).2), total_chunks := some 0 } ∧
    send_file md5 (some (FSEntry.file [])) name CHUNK_SIZE
      = some [SMsg.file_info
                { filename := some name, size := some 0, hash := some (md5 []),
                  extension := some (lowerChars (splitext name).2), total_chunks := some 0 },
              SMsg.file_complete name (some (md5 [])) none] ∧
    receive_file md5 existing
      { filename := some name, size := some 0, hash := some (md5 []),
        extension := some (lowerChars (splitext name).2), total_chunks := some 0 } []
      = (some (resolve_collision existing name),
         some (resolve_collision existing name, [])) := by
  refine ⟨rfl, rfl, ?_⟩
  show (if (some (md5 []) : Option (List Nat)) = some (md5 []) then
      (some (resolve_collision existing name),
       some (resolve_collision existing name, ([] : List Nat)))
    else (none, none)) = _
  rw [if_pos rfl]

/-! ### Claim C2 -/

/-- C2: evaluation of the sender at the spec's own scenario (a 20000-byte
file).  `prepare_file_info` announces `total_chunks = 3` (computed with
`CHUNK_SIZE = 8192`), but `P2PClient.start_file_sending` streams the file
in 4096-byte chunks and therefore emits five `file_chunk` messages with
ids 0, 1, 2, 3, 4 — not the three announced. -/
theorem c2_bug_eval :
    ∃ info, prepare_file_info md5c (some (FSEntry.file (List.replicate 20000 0)))
        "report.pdf".data = some info ∧
      info.total_chunks = some 3 ∧
      chunkIds (start_file_sending
        { mkSendSession info "report.pdf".data with state := FTState.sending_chunks }
        (List.replicate 20000 0)) = [0, 1, 2, 3, 4] := by
  refine ⟨_, rfl, ?_, ?_⟩
  · show some (((List.replicate 20000 (0 : Nat)).length + CHUNK_SIZE - 1) / CHUNK_SIZE)
      = some 3
    rw [List.length_replicate]
    norm_num [CHUNK_SIZE]
  · rw [start_file_sending, if_neg (fun h => h rfl)]
    rw [chunkIds_append, chunkIds_sendChunkMsgs,
      chunkFile_length 4096 _ (by norm_num), List.length_replicate]
    decide

/-! ### Claim C3 -/

/-- C3 counterexample: an out-of-order chunk does not abort the session
in `P2PClient.handle_file_chunk`.  With one chunk already written
(`received_chunks = 1`), a chunk carrying `chunk_id = 5` is accepted: the
payload is appended to the staging file, the counter is incremented, and
the session stays in `RECEIVING_CHUNKS` — nothing is deleted. -/
theorem c3_counterexample :
    handle_file_chunk
      (some { filename := "f.txt".data, filesize := 100, total_chunks := 3,
              received_chunks := 1, temp := some [7],
              state := FTState.receiving_chunks })
      { type := some "file_chunk", chunk_id := some 5, data := some ['0', '1'],
        filename := none }
      = (some { filename := "f.txt".data, filesize := 100, total_chunks := 3,
                received_chunks := 2, temp := some [7, 1],
                state := FTState.receiving_chunks }, ChunkOut.ok) := by
  decide

/-- C3 amended: strict in-order delivery is enforced only by
`FileTransfer.receive_file`, where a chunk whose `chunk_id` differs from
the number of chunks already written (or whose type is not `file_chunk`)
aborts the call: the partial file is deleted and `None` returned, so no
final file is produced.  `P2PClient.handle_file_chunk`, by contrast, never
aborts the session, whatever the incoming `chunk_id`. -/
theorem c3_amended :
    (∀ (md5 : List Nat → List Nat) (existing : List (List Char)) (info : FileInfoD)
        (chunks : List (List Nat)) (bad : ChunkMsg) (rest : List (Option ChunkMsg))
        (tc : Nat) (fname : Option (List Char)),
      (∀ c ∈ chunks, ∀ b ∈ c, b < 256) →
      chunks.length < info.total_chunks.getD 0 →
      (bad.type ≠ some "file_chunk" ∨ bad.chunk_id ≠ some chunks.length) →
      receive_file md5 existing info
        ((sendChunkMsgs tc fname 0 chunks).map (fun m => some (wireView m))
          ++ some bad :: rest)
        = (none, none)) ∧
    (∀ (s : Session) (m : ChunkMsg), (handle_file_chunk (some s) m).1 ≠ none) := by
  constructor
  · intro md5 existing info chunks bad rest tc fname hv hlt hbad
    have h := receiveChunks_bad chunks bad rest tc 0 (info.total_chunks.getD 0) fname []
      hv hlt (by simpa using hbad)
    show (match receiveChunks
        ((sendChunkMsgs tc fname 0 chunks).map (fun m => some (wireView m))
          ++ some bad :: rest)
        (info.total_chunks.getD 0) 0 [] with
      | none => ((none : Option (List Char)), (none : Option (List Char × List Nat)))
      | some bytes =>
        if info.hash = some (md5 bytes) then
          (some (resolve_collision existing (info.filename.getD "received_file".data)),
           some (resolve_collision existing (info.filename.getD "received_file".data), bytes))
        else (none, none)) = (none, none)
    rw [h]
  · intro s m
    simp only [handle_file_chunk]
    by_cases hs : s.state ≠ FTState.receiving_chunks
    · rw [if_pos hs]
      simp
    · rw [if_neg hs]
      cases hhex : hexToBytes (m.data.getD []) with
      | none => simp
      | some bytes => simp

/-- C3 witness: the amended theorem at a concrete input — one good chunk
followed by a chunk with `chunk_id = 5` where 1 was expected aborts
`receive_file` with nothing left on disk. -/
theorem c3_witness :
    receive_file md5c []
      { filename := some "f.txt".data, size := some 2, hash := some [],
        extension := some [], total_chunks := some 2 }
      ((sendChunkMsgs 2 none 0 [[7]]).map (fun m => some (wireView m))
        ++ some { type := some "file_chunk", chunk_id := some 5,
                  data := some ['0', '1'], filename := none } :: [])
      = (none, none) :=
  c3_amended.1 md5c []
    { filename := some "f.txt".data, size := some 2, hash := some [],
      extension := some [], total_chunks := some 2 }
    [[7]]
    { type := some "file_chunk", chunk_id := some 5,
      data := some ['0', '1'], filename := none }
    [] 2 none (by decide) (by decide) (by decide)

/-! ### Claim C4 -/

/-- C4 counterexample: `received_chunks` exceeds `total_chunks` (a fourth
chunk arrives with `total_chunks = 3` and is counted), and
`handle_file_complete` finalizes (renames to the final name) a session
with `received_chunks = 1 ≠ 3 = total_chunks`. -/
theorem c4_counterexample :
    (handle_file_chunk
      (some { filename := "f.txt".data, total_chunks := 3, received_chunks := 3,
              temp := some [1], state := FTState.receiving_chunks })
      { type := some "file_chunk", chunk_id := some 3, data := some ['f', 'f'],
        filename := none }
      = (some { filename := "f.txt".data, total_chunks := 3, received_chunks := 4,
                temp := some [1, 255], state := FTState.receiving_chunks },
         ChunkOut.ok)) ∧
    handle_file_complete md5c
      (some { filename := "g.txt".data, filesize := 1, total_chunks := 3,
              received_chunks := 1, temp := some [9],
              state := FTState.receiving_chunks })
      []
      = (none, some ("g.txt".data, [9]), CompOut.ok_no_hash) := by
  decide

/-- C4 amended: `handle_file_complete` renames the staging file to its
final name unconditionally — no comparison of `received_chunks` with
`total_chunks` is made, and size/hash mismatches are only reported after
the rename.  `handle_file_chunk` increments `received_chunks` on every
decodable chunk without any bound, so the counter can pass
`total_chunks`.  (Only `FileTransfer.receive_file`, which reads exactly
`total_chunks` chunks, keeps the counter bounded.) -/
theorem c4_amended :
    (∀ (md5 : List Nat → List Nat) (s : Session) (existing : List (List Char))
        (bytes : List Nat),
      s.temp = some bytes →
      (handle_file_complete md5 (some s) existing).2.1
        = some (resolveHFC existing s.filename, bytes)) ∧
    (∀ (s : Session) (m : ChunkMsg) (bytes : List Nat),
      s.state = FTState.receiving_chunks →
      hexToBytes (m.data.getD []) = some bytes →
      ∃ s2, (handle_file_chunk (some s) m).1 = some s2 ∧
        s2.received_chunks = s.received_chunks + 1) := by
  constructor
  · intro md5 s existing bytes htemp
    simp only [handle_file_complete]
    rw [htemp]
  · intro s m bytes hstate hhex
    simp only [handle_file_chunk]
    rw [if_neg (fun h => h hstate), hhex]
    exact ⟨_, rfl, rfl⟩

/-- C4 witness: the amended theorem at a concrete session with
`received_chunks = 1` and `total_chunks = 3` — the file is finalized
anyway. -/
theorem c4_witness :
    (handle_file_complete md5c
      (some { filename := "h.txt".data, filesize := 2, total_chunks := 3,
              received_chunks := 1, temp := some [1, 2],
              state := FTState.receiving_chunks })
      []).2.1 = some ("h.txt".data, [1, 2]) := by
  have h := c4_amended.1 md5c
    { filename := "h.txt".data, filesize := 2, total_chunks := 3,
      received_chunks := 1, temp := some [1, 2],
      state := FTState.receiving_chunks } [] [1, 2] rfl
  rw [h]
  decide

/-! ### Claim C5 -/

/-- C5 counterexample: in `FileTransfer.receive_file` a hash mismatch
*does* remove the received file.  Here one chunk (`0x07`) is received
correctly, but the offer's hash `[9]` differs from the recomputed digest;
the call returns `None` and no file is left on disk. -/
theorem c5_counterexample :
    receive_file md5c []
      { filename := some "f.txt".data, size := some 1, hash := some [9],
        extension := some [], total_chunks := some 1 }
      [some { type := some "file_chunk", chunk_id := some 0,
              data := some ['0', '7'], filename := none }]
      = (none, none) := by
  decide

/-- C5 amended: the two receive paths disagree.
`P2PClient.handle_file_complete` retains the finalized file on a hash
mismatch and only prints a warning; `FileTransfer.receive_file` deletes
the received file and returns `None` whenever the recomputed digest
differs from the offer's hash. -/
theorem c5_amended :
    (∀ (md5 : List Nat → List Nat) (s : Session) (existing : List (List Char))
        (bytes : List Nat),
      s.temp = some bytes → bytes.length = s.filesize → s.file_hash ≠ [] →
      md5 bytes ≠ s.file_hash →
      handle_file_complete md5 (some s) existing
        = (none, some (resolveHFC existing s.filename, bytes),
           CompOut.warn_hash_mismatch)) ∧
    (∀ (md5 : List Nat → List Nat) (existing : List (List Char)) (info : FileInfoD)
        (msgs : List (Option ChunkMsg)) (bytes : List Nat),
      receiveChunks msgs (info.total_chunks.getD 0) 0 [] = some bytes →
      info.hash ≠ some (md5 bytes) →
      receive_file md5 existing info msgs = (none, none)) := by
  constructor
  · intro md5 s existing bytes htemp hsize hhash hmis
    simp only [handle_file_complete]
    rw [htemp]
    simp [hsize, hhash, hmis]
  · intro md5 existing info msgs bytes hrecv hmis
    simp only [receive_file]
    rw [hrecv]
    simp [hmis]

/-- C5 witness: the amended theorem at a concrete session whose staged
bytes hash to a value different from the offered one — the file is
retained with a mismatch warning. -/
theorem c5_witness :
    handle_file_complete md5c
      (some { filename := "k.txt".data, filesize := 1, file_hash := [3],
              temp := some [5], state := FTState.receiving_chunks }) []
      = (none, some ("k.txt".data, [5]), CompOut.warn_hash_mismatch) := by
  have h := c5_amended.1 md5c
    { filename := "k.txt".data, filesize := 1, file_hash := [3],
      temp := some [5], state := FTState.receiving_chunks } [] [5]
    rfl rfl (by decide) (by decide)
  rw [h]
  decide

/-! ### Claim C6 -/

/-- C6 counterexample: the finalizer of `P2PClient.handle_file_complete`
re-splits the already-suffixed name on the second probe, so with `a.txt`
and `a_1.txt` both present it produces `a_1_2.txt`, not `a_2.txt`. -/
theorem c6_counterexample :
    resolveHFC ["a.txt".data, "a_1.txt".data] "a.txt".data = "a_1_2.txt".data ∧
    resolveHFC ["a.txt".data, "a_1.txt".data] "a.txt".data ≠ "a_2.txt".data := by
  decide

/-- C6 amended: `FileTransfer.receive_file`'s collision resolution behaves
as claimed — `a.txt` taken gives `a_1.txt`, and with `a_1.txt` also taken
gives `a_2.txt` — and in general it never picks an existing name (never
overwrites).  The finalizer of `P2PClient.handle_file_complete` instead
compounds suffixes: the same second collision yields `a_1_2.txt`. -/
theorem c6_amended :
    resolve_collision ["a.txt".data] "a.txt".data = "a_1.txt".data ∧
    resolve_collision ["a.txt".data, "a_1.txt".data] "a.txt".data = "a_2.txt".data ∧
    (∀ (existing : List (List Char)) (filename : List Char),
      resolve_collision existing filename ∉ existing) ∧
    resolveHFC ["a.txt".data, "a_1.txt".data] "a.txt".data = "a_1_2.txt".data :=
  ⟨by decide, by decide, resolve_collision_not_mem, by decide⟩

/-- C6 witness: the never-overwrite component of the amended theorem at a
concrete directory listing, next to its concretely evaluated value. -/
theorem c6_witness :
    resolve_collision ["b.txt".data] "b.txt".data = "b_1.txt".data ∧
    resolve_collision ["b.txt".data] "b.txt".data ∉ ["b.txt".data] :=
  ⟨by decide, c6_amended.2.2.1 ["b.txt".data] "b.txt".data⟩

/-! ### Claim C7 -/

/-- C7 counterexample: a spurious `file_reject` with no session is a
*silent* no-op (no warning is printed, unlike the claim), and a
`file_reject` arriving while a session exists in a non-waiting state
(here `RECEIVING_CHUNKS`) is not a no-op: it destroys the session. -/
theorem c7_counterexample :
    handle_file_reject none = (none, RejectOut.silent) ∧
    (handle_file_reject (some { state := FTState.receiving_chunks })).1 = none ∧
    ({ state := FTState.receiving_chunks } : Session).state
      ≠ FTState.waiting_confirmation := by
  decide

/-- C7 amended: a spurious `file_accept` (no session, or a session not in
`WAITING_CONFIRMATION`) is a no-op reported as a warning; a spurious
`file_reject` with no session is a silent no-op; `file_reject` always
clears the session, whatever its state; and rejection is idempotent on
state — applying it twice leaves the same state as applying it once. -/
theorem c7_amended :
    (∀ s : Option Session,
      (s = none ∨ ∀ sess, s = some sess → sess.state ≠ FTState.waiting_confirmation) →
      handle_file_accept s = (s, AcceptOut.warn_unexpected)) ∧
    (∀ s : Option Session, (handle_file_reject s).1 = none) ∧
    (∀ s : Option Session,
      handle_file_reject (handle_file_reject s).1 = (none, RejectOut.silent)) := by
  refine ⟨?_, ?_, ?_⟩
  · intro s hs
    cases s with
    | none => rfl
    | some sess =>
      have hst : sess.state ≠ FTState.waiting_confirmation := by
        rcases hs with h | h
        · exact absurd h (by simp)
        · exact h sess rfl
      simp only [handle_file_accept]
      rw [if_neg hst]
  · intro s
    cases s <;> rfl
  · intro s
    cases s <;> rfl

/-- C7 witness: the amended theorem applied to a session in
`RECEIVING_CHUNKS` state — the spurious `file_accept` is a warning no-op. -/
theorem c7_witness :
    handle_file_accept (some { state := FTState.receiving_chunks })
      = (some { state := FTState.receiving_chunks }, AcceptOut.warn_unexpected) :=
  c7_amended.1 (some { state := FTState.receiving_chunks })
    (Or.inr (fun sess h => by cases h; decide))

/-! ### Claim C8 -/

/-- C8 counterexample: an unregistered username of length 2 is refused
with 400, not registered with 201 — so "201 if and only if not already
registered" fails. -/
theorem c8_counterexample :
    register_peer [] "ab" "1.2.3.4" 5000 = (RegOut.badRequest, []) ∧
    (register_peer [] "ab" "1.2.3.4" 5000).1 ≠ RegOut.created := by
  decide

/-- C8 amended: `POST /register` returns 201 and adds the peer exactly
when the username has at least 3 characters *and* is not already
registered; a registered username (of valid length) gets 409 with the
registry unchanged; a username shorter than 3 characters gets 400 with
the registry unchanged; and a lookup of an unregistered username returns
404 (`none`). -/
theorem c8_amended :
    (∀ (store : List (String × String × Nat)) (username ip : String) (port : Nat),
      username.length < 3 →
      register_peer store username ip port = (RegOut.badRequest, store)) ∧
    (∀ (store : List (String × String × Nat)) (username ip : String) (port : Nat),
      3 ≤ username.length →
      store.any (fun e => e.1 = username) = true →
      register_peer store username ip port = (RegOut.conflict, store)) ∧
    (∀ (store : List (String × String × Nat)) (username ip : String) (port : Nat),
      3 ≤ username.length →
      store.any (fun e => e.1 = username) = false →
      register_peer store username ip port
        = (RegOut.created, (username, ip, port) :: store)) ∧
    (∀ (store : List (String × String × Nat)) (username : String),
      store.any (fun e => e.1 = username) = false →
      get_peer_info store username = none) := by
  have hvalid : ∀ username : String, 3 ≤ username.length →
      ¬(username = "" ∨ username.length < 3) := by
    intro username hlen h
    rcases h with h | h
    · subst h
      exact absurd hlen (by decide)
    · omega
  refine ⟨?_, ?_, ?_, ?_⟩
  · intro store username ip port hlen
    simp only [register_peer]
    rw [if_pos (Or.inr hlen)]
  · intro store username ip port hlen hmem
    simp only [register_peer]
    rw [if_neg (hvalid username hlen), if_pos hmem]
  · intro store username ip port hlen hmem
    simp only [register_peer]
    rw [if_neg (hvalid username hlen), if_neg (by simp [hmem])]
  · intro store username h
    simp only [get_peer_info]
    have hfind : store.find? (fun e => e.1 = username) = none := by
      rw [List.find?_eq_none]
      intro x hx
      have := List.any_eq_false.mp h x hx
      simpa using this
    rw [hfind]

/-- C8 witness: a fresh, valid username is registered with 201. -/
theorem c8_witness :
    register_peer [] "alice" "1.2.3.4" 5000
      = (RegOut.created, [("alice", "1.2.3.4", 5000)]) :=
  c8_amended.2.2.1 [] "alice" "1.2.3.4" 5000 (by decide) (by decide)
